import Mathlib

/-
Verification development for the Evaluate-Pai repository (Rust sources under
src/pi/src).  The integer core of the Chudnovsky binary-splitting pipeline,
the per-path precision/term planners, the w0 incremental term evaluator and
the streaming digit extractor are embedded as executable Lean definitions;
the theorems below settle the frozen claims about them.

Modelling conventions:
  * rug::Integer is embedded as Int/Nat (exact, as in the library).
  * The planners compute `(x as f64 / c).ceil()` / `(x as f64 * c).ceil()`
    on decimal literal constants; these are embedded as exact rational
    ceilings (14.18 = 709/50, 3.32193 = 332193/100000, 14.0 = 14), written
    as the natural-number ceiling division ceilDiv.  For every digit count
    in the programs' accepted range (at most 10^9) the f64 computation and
    the exact rational ceiling agree.
  * u64 arithmetic is embedded as Nat; where wrap-around matters
    (computeBinarySplitFuel) the subtraction and addition are taken mod 2^64
    exactly as release-mode Rust wraps them.
  * rug::Float values reaching the digit extractor are embedded by their
    exact rational value; the extractor's multiplications by 10 and
    subtractions of a small integer are exact at the working precision for
    the inputs used here. `Float::to_integer` rounds to the nearest integer
    with ties to even (MPFR RNDN), embedded as rndNearest; the
    `to_u32().unwrap()` on its result panics on a negative integer, embedded
    by an Option result (none = the write aborts with a panic).
-/

namespace PiEval

/-- Function `factorial` of main.chudnovsky.rs (lines 196-206): iterative
product of 1..=n, with factorial 0 = 1. -/
def factorial : Nat → Nat
  | 0 => 1
  | n + 1 => factorial n * (n + 1)

/-- An exact integer triple (P, Q, T) as returned by
`ChudnovskyBinarySplit::compute_binary_split`. -/
structure Split where
  P : Int
  Q : Int
  T : Int
deriving DecidableEq, Repr

/-- Base case of `compute_binary_split` (main.chudnovsky.rs lines 42-78):
the triple for the single index k = a.  Numerator
(-1)^k * (6k)! * (13591409 + 545140134*k), denominator
(3k)! * (k!)^3 * 640320^(3k), T = 1. -/
def splitBase (k : Nat) : Split :=
  let sixKFac : Int := factorial (6 * k)
  let lk : Int := 13591409 + 545140134 * (k : Int)
  let pTemp : Int := sixKFac * lk
  let p : Int := if k % 2 = 0 then pTemp else -pTemp
  let q : Int := (factorial (3 * k) : Int) * ((factorial k : Int)) ^ 3 * 640320 ^ (3 * k)
  ⟨p, q, 1⟩

/-- Merge rule of `compute_binary_split` (main.chudnovsky.rs lines 85-91) and
of the collection loop in `compute_pi` (lines 143-148):
P = P1*Q2 + P2*T1, Q = Q1*Q2, T = T1*T2. -/
def mergeSplit (l r : Split) : Split :=
  ⟨l.P * r.Q + r.P * l.T, l.Q * r.Q, l.T * r.T⟩

/-- Recursion of `compute_binary_split` (main.chudnovsky.rs lines 41-95) with
the recursion depth made explicit: for a < b the Rust recursion on
[a, (a+b)/2) and [(a+b)/2, b) strictly decreases b - a, so fuel = b - a
always suffices and the fuel-exhaustion value is never reached
(computeBinarySplitAux_closed below).  Invalid ranges a >= b, on which the
Rust function does not terminate, are modelled faithfully by
computeBinarySplitFuel instead. -/
def computeBinarySplitAux : Nat → Nat → Nat → Split
  | 0, _, _ => ⟨0, 1, 1⟩
  | fuel + 1, a, b =>
    if b - a = 1 then splitBase a
    else
      let m := (a + b) / 2
      mergeSplit (computeBinarySplitAux fuel a m) (computeBinarySplitAux fuel m b)

/-- `ChudnovskyBinarySplit::compute_binary_split(a, b)` for a valid range
a < b. -/
def compute_binary_split (a b : Nat) : Split :=
  computeBinarySplitAux (b - a) a b

/-- `compute_binary_split` with release-mode u64 semantics, for the behaviour
on arbitrary (including invalid) ranges: the test `b - a == 1` wraps mod 2^64
and the midpoint `(a + b) / 2` wraps mod 2^64.  The fuel bounds the inspected
recursion depth: `none` for every fuel means the recursion never reaches a
result (the Rust call never returns). -/
def computeBinarySplitFuel : Nat → Nat → Nat → Option Split
  | 0, _, _ => none
  | fuel + 1, a, b =>
    if (b + 2 ^ 64 - a) % 2 ^ 64 = 1 then some (splitBase a)
    else
      match computeBinarySplitFuel fuel a ((a + b) % 2 ^ 64 / 2) with
      | none => none
      | some l =>
        match computeBinarySplitFuel fuel ((a + b) % 2 ^ 64 / 2) b with
        | none => none
        | some r => some (mergeSplit l r)

/-- P-component of the one-term triple. -/
def Pterm (k : Nat) : Int := (splitBase k).P

/-- Q-component of the one-term triple. -/
def Qterm (k : Nat) : Int := (splitBase k).Q

/-- Product Qterm a * Qterm (a+1) * ... * Qterm (a+len-1). -/
def qProdLen : Nat → Nat → Int
  | 0, _ => 1
  | len + 1, a => Qterm a * qProdLen len (a + 1)

/-- Weighted sum: for the range [a, a+len), the P-component the merge rule
accumulates, Sum over k of Pterm k * (product of Qterm j for j in (k, a+len)). -/
def pSumLen : Nat → Nat → Int
  | 0, _ => 0
  | len + 1, a => Pterm a * qProdLen len (a + 1) + pSumLen len (a + 1)

/-- Ceiling of the exact division a / b on natural numbers, for b > 0:
the value of `(a as f64 / b as f64).ceil()` whenever that f64 division is
exact enough, which it is for all the planner inputs considered here. -/
def ceilDiv (a b : Nat) : Nat := (a + b - 1) / b

/-- Term planner of `ChudnovskyBinarySplit::compute_pi` (main.chudnovsky.rs
lines 104-110): terms_needed = ceil(digits / 14.18) clamped to max_terms =
1000.  digits / 14.18 = 50 * digits / 709 exactly. -/
def termsChud (digits : Nat) : Nat :=
  let terms := ceilDiv (50 * digits) 709
  if terms > 1000 then 1000 else terms

/-- Term planner of `compute_pi_chudnovsky` in main.chudnovsky0.rs (line
112): ceil(digits / 14.18) + 2. -/
def termsChud0 (digits : Nat) : Nat :=
  ceilDiv (50 * digits) 709 + 2

/-- Term planner of `compute_pi_chudnovsky` in main.w0.rs (line 140):
ceil(digits / 14.0) + 2. -/
def termsW0 (digits : Nat) : Nat :=
  ceilDiv digits 14 + 2

/-- Precision planner of `compute_pi_parallel` in main.ava.rs (line 34):
ceil(digits * 3.32193) + 10.  digits * 3.32193 = 332193 * digits / 100000
exactly. -/
def precisionAva (digits : Nat) : Nat :=
  ceilDiv (332193 * digits) 100000 + 10

/-- Precision planner of `ChudnovskyBinarySplit::compute_pi` in
main.chudnovsky.rs (line 156): ceil(digits * 3.32193) + 10. -/
def precisionChud (digits : Nat) : Nat :=
  ceilDiv (332193 * digits) 100000 + 10

/-- Precision planner of `compute_pi_chudnovsky` in main.chudnovsky0.rs
(line 108): ceil(digits * 3.32193) + 10. -/
def precisionChud0 (digits : Nat) : Nat :=
  ceilDiv (332193 * digits) 100000 + 10

/-- Precision planner of `compute_pi_chudnovsky` in main.w0.rs (line 137):
ceil(digits * 3.32193) + 32. -/
def precisionW0 (digits : Nat) : Nat :=
  ceilDiv (332193 * digits) 100000 + 32

/-- Per-thread range width in `compute_pi` (main.chudnovsky.rs line 115):
`(terms_needed as f64 / num_threads as f64).ceil() as u64`.  Division by a
zero thread count gives +infinity (saturating to u64::MAX on cast) for
terms > 0 and NaN (casting to 0) for terms = 0. -/
def numTermsPerThread (terms threads : Nat) : Nat :=
  if threads = 0 then (if terms = 0 then 0 else 2 ^ 64 - 1)
  else ceilDiv terms threads

/-- Range-building while loop of `compute_pi` (main.chudnovsky.rs lines
116-123): push (start, min (start + per) terms) while start < terms.  Each
executed iteration advances start by at least one (per >= 1 whenever the
loop is entered in the program), so fuel = terms bounds the iteration
count. -/
def buildRangesAux : Nat → Nat → Nat → Nat → List (Nat × Nat)
  | 0, _, _, _ => []
  | fuel + 1, start, terms, per =>
    if start < terms then
      (start, min (start + per) terms) :: buildRangesAux fuel (min (start + per) terms) terms per
    else []

/-- The list of (start, end) ranges `compute_pi` hands to its workers. -/
def buildRanges (terms per : Nat) : List (Nat × Nat) :=
  buildRangesAux terms 0 terms per

/-- Collection loop of `compute_pi` (main.chudnovsky.rs lines 136-153): fold
the per-range triples in order into (P, Q, T) = (0, 1, 1) with the merge
rule. -/
def foldRanges (rs : List (Nat × Nat)) : Split :=
  rs.foldl (fun acc r => mergeSplit acc (compute_binary_split r.1 r.2)) ⟨0, 1, 1⟩

/-- Integer core of `ChudnovskyBinarySplit::compute_pi` (main.chudnovsky.rs
lines 104-153): plan the term count, partition [0, terms) into per-thread
ranges, binary-split each range, and fold the triples left to right.  The
final float assembly (lines 155-174) consumes the resulting P and Q. -/
def compute_pi_triple (digits threads : Nat) : Split :=
  let terms := termsChud digits
  let per := numTermsPerThread terms threads
  foldRanges (buildRanges terms per)

/-- Contiguous ranges covering [start, start + sum sizes) with the given
sizes, in ascending order: an arbitrary static partition as distributed to
workers. -/
def rangesOfSizes (start : Nat) : List Nat → List (Nat × Nat)
  | [] => []
  | s :: rest => (start, start + s) :: rangesOfSizes (start + s) rest

/-- Closed-form Chudnovsky numerator for term k (spec section 4.2, and the
base case of compute_binary_split):
(-1)^k * (6k)! * (13591409 + 545140134*k). -/
def chudNum (k : Nat) : Int :=
  (-1) ^ k * (Nat.factorial (6 * k) : Int) * (13591409 + 545140134 * (k : Int))

/-- Closed-form Chudnovsky denominator for term k (spec section 4.2):
(3k)! * (k!)^3 * 640320^(3k). -/
def chudDen (k : Nat) : Nat :=
  Nat.factorial (3 * k) * Nat.factorial k ^ 3 * 640320 ^ (3 * k)

/-- Recurrence state of `ChudnovskyCalculator` in main.w0.rs (lines 11-24):
the running factorials k!, (3k)! and (6k)! the incremental term evaluation
carries from one call to the next.  The Float fields and constants do not
affect the integer term construction and are omitted. -/
structure CalcState where
  kFactorial : Nat
  threeKFactorial : Nat
  sixKFactorial : Nat
deriving DecidableEq, Repr

/-- Initial state from `ChudnovskyCalculator::new` (main.w0.rs lines 46-48):
all three running factorials start at 1. -/
def initCalc : CalcState := ⟨1, 1, 1⟩

/-- `ChudnovskyCalculator::update_factorials` (main.w0.rs lines 96-122):
k = 1 resets the state; any other k multiplies the stored factorials by the
next factor blocks, assuming the stored state belongs to index k - 1. -/
def update_factorials (s : CalcState) (k : Nat) : CalcState :=
  if k = 1 then ⟨1, 6, 720⟩
  else
    ⟨s.kFactorial * k,
     s.threeKFactorial * (3 * k - 2) * (3 * k - 1) * (3 * k),
     s.sixKFactorial * (6 * k - 5) * (6 * k - 4) * (6 * k - 3) * (6 * k - 2)
       * (6 * k - 1) * (6 * k)⟩

/-- Integer core of `ChudnovskyCalculator::compute_term` (main.w0.rs lines
57-93): the exact numerator and denominator the method assembles before the
final float division, together with the updated state.  k = 0 produces the
pair (1, 1) and leaves the state untouched. -/
def compute_term (s : CalcState) (k : Nat) : CalcState × Int × Nat :=
  if k = 0 then (s, 1, 1)
  else
    let s2 := update_factorials s k
    let num0 : Int := (s2.sixKFactorial : Int) * (13591409 + 545140134 * (k : Int))
    let num : Int := if k % 2 = 1 then -num0 else num0
    let den : Nat := s2.threeKFactorial * s2.kFactorial ^ 3 * 640320 ^ (3 * k)
    (s2, num, den)

/-- Nearest-integer rounding with ties to even: the MPFR RNDN rounding that
rug `Float::to_integer` applies in `write_pi_to_file_optimized`
(main.w0.rs line 220). -/
def rndNearest (x : ℚ) : Int :=
  let f := x - ⌊x⌋
  if f < 1 / 2 then ⌊x⌋
  else if 1 / 2 < f then ⌊x⌋ + 1
  else if ⌊x⌋ % 2 = 0 then ⌊x⌋ else ⌊x⌋ + 1

/-- Digit loop of `write_pi_to_file_optimized` (main.w0.rs lines 213-238),
on the exact value of the remainder: multiply by 10, convert to an integer
with `to_integer` (nearest rounding), pass it through
`to_u32().unwrap() as u8` (a negative or too-large integer panics the
program: none), subtract the u8 value, recurse.  some ds = the digit values
written. -/
def streamDigits : Nat → ℚ → Option (List Nat)
  | 0, _ => some []
  | n + 1, rem =>
    let remTen := rem * 10
    let d := rndNearest remTen
    if d < 0 ∨ (2 ^ 32 : Int) ≤ d then none
    else
      match streamDigits n (remTen - ((d.toNat % 256 : Nat) : ℚ)) with
      | none => none
      | some ds => some (d.toNat % 256 :: ds)

/-- Separator placement of the streaming writer (main.w0.rs lines 224-231):
after fractional digit i+1, a line break when 50 divides i+1, else a space
when 10 divides i+1. -/
def formatStreamAux : Nat → List Nat → String
  | _, [] => ""
  | i, d :: ds =>
    toString d
      ++ (if (i + 1) % 50 = 0 then "\n" else if (i + 1) % 10 = 0 then " " else "")
      ++ formatStreamAux (i + 1) ds

/-- Digit portion of the streaming output of `write_pi_to_file_optimized`
for an assembled value v: the literal "3." (line 210), then the extracted
digits with their separators; none when the extraction panics.  The header
and trailing statistics lines are driver output outside the digit stream. -/
def streamRender (v : ℚ) (digits : Nat) : Option String :=
  match streamDigits digits (v - 3) with
  | none => none
  | some ds => some ("3." ++ formatStreamAux 0 ds)

/-- First fractional digit by the rule the spec states for the extractor:
truncation of the scaled fractional remainder toward zero (for the values at
hand, the floor).  Spec-side comparator for the rounding the code performs. -/
def truncFirstDigit (v : ℚ) : Int := ⌊(v - 3) * 10⌋

/-! Closed forms of the binary-splitting recursion.  The merge rule keeps
T = 1, multiplies the Q components, and accumulates into P each one-term
numerator weighted by the Q factors of all later terms; qProdLen and pSumLen
express those closed forms over the range [a, a + len). -/

lemma qProdLen_add (d1 d2 a : Nat) :
    qProdLen (d1 + d2) a = qProdLen d1 a * qProdLen d2 (a + d1) := by
  induction d1 generalizing a with
  | zero => simp [qProdLen]
  | succ d ih =>
    calc qProdLen (d + 1 + d2) a
        = qProdLen (d + d2 + 1) a := by rw [Nat.succ_add]
      _ = Qterm a * qProdLen (d + d2) (a + 1) := rfl
      _ = Qterm a * (qProdLen d (a + 1) * qProdLen d2 (a + 1 + d)) := by rw [ih]
      _ = Qterm a * qProdLen d (a + 1) * qProdLen d2 (a + 1 + d) := by rw [mul_assoc]
      _ = qProdLen (d + 1) a * qProdLen d2 (a + (d + 1)) := by
          rw [show a + 1 + d = a + (d + 1) by omega]
          rfl

lemma pSumLen_add (d1 d2 a : Nat) :
    pSumLen (d1 + d2) a
      = pSumLen d1 a * qProdLen d2 (a + d1) + pSumLen d2 (a + d1) := by
  induction d1 generalizing a with
  | zero => simp [pSumLen, qProdLen]
  | succ d ih =>
    have hidx : a + 1 + d = a + (d + 1) := by omega
    calc pSumLen (d + 1 + d2) a
        = pSumLen (d + d2 + 1) a := by rw [Nat.succ_add]
      _ = Pterm a * qProdLen (d + d2) (a + 1) + pSumLen (d + d2) (a + 1) := rfl
      _ = Pterm a * (qProdLen d (a + 1) * qProdLen d2 (a + 1 + d))
            + (pSumLen d (a + 1) * qProdLen d2 (a + 1 + d)
               + pSumLen d2 (a + 1 + d)) := by rw [qProdLen_add, ih]
      _ = (Pterm a * qProdLen d (a + 1) + pSumLen d (a + 1))
            * qProdLen d2 (a + 1 + d) + pSumLen d2 (a + 1 + d) := by ring
      _ = pSumLen (d + 1) a * qProdLen d2 (a + (d + 1)) + pSumLen d2 (a + (d + 1)) := by
          rw [hidx]
          rfl

lemma splitBase_eq (k : Nat) : splitBase k = ⟨Pterm k, Qterm k, 1⟩ := rfl

lemma computeBinarySplitAux_closed :
    ∀ fuel a len, 0 < len → len ≤ fuel →
      computeBinarySplitAux fuel a (a + len) = ⟨pSumLen len a, qProdLen len a, 1⟩ := by
  intro fuel
  induction fuel with
  | zero => intro a len h1 h2; omega
  | succ fuel ih =>
    intro a len h1 h2
    rw [computeBinarySplitAux]
    by_cases hlen : len = 1
    · subst hlen
      rw [if_pos (by omega)]
      rw [splitBase_eq]
      simp [pSumLen, qProdLen]
    · rw [if_neg (by omega)]
      have hlen2 : 2 ≤ len := by omega
      have hm : (a + (a + len)) / 2 = a + len / 2 := by omega
      set l1 := len / 2 with hl1
      set l2 := len - l1 with hl2
      have hsplit : len = l1 + l2 := by omega
      have h11 : 0 < l1 := by omega
      have h12 : l1 ≤ fuel := by omega
      have h21 : 0 < l2 := by omega
      have h22 : l2 ≤ fuel := by omega
      have hb : a + len = (a + l1) + l2 := by omega
      rw [hm, hb]
      show mergeSplit (computeBinarySplitAux fuel a (a + l1))
            (computeBinarySplitAux fuel (a + l1) (a + l1 + l2))
          = ⟨pSumLen len a, qProdLen len a, 1⟩
      rw [ih a l1 h11 h12, ih (a + l1) l2 h21 h22]
      simp only [mergeSplit]
      rw [hsplit, qProdLen_add, pSumLen_add, Split.mk.injEq]
      refine ⟨by ring, by ring, by ring⟩

lemma compute_binary_split_closed (a b : Nat) (h : a < b) :
    compute_binary_split a b = ⟨pSumLen (b - a) a, qProdLen (b - a) a, 1⟩ := by
  obtain ⟨len, rfl⟩ : ∃ len, b = a + len := ⟨b - a, by omega⟩
  have hlen : 0 < len := by omega
  rw [compute_binary_split, show a + len - a = len by omega]
  exact computeBinarySplitAux_closed len a len hlen le_rfl

lemma mergeSplit_compute (a m b : Nat) (h1 : a < m) (h2 : m < b) :
    mergeSplit (compute_binary_split a m) (compute_binary_split m b)
      = compute_binary_split a b := by
  rw [compute_binary_split_closed a m h1, compute_binary_split_closed m b h2,
    compute_binary_split_closed a b (h1.trans h2)]
  have hm : m = a + (m - a) := by omega
  have hb : b - a = (m - a) + (b - m) := by omega
  rw [mergeSplit, hb, qProdLen_add, pSumLen_add, Split.mk.injEq]
  rw [show a + (m - a) = m by omega]
  exact ⟨by ring, by ring, by ring⟩

/-! Folding per-range triples left to right.  The invariant: after the
ranges covering [0, c) have been folded, the accumulator is the closed-form
triple of [0, c); the merge rule then absorbs the next contiguous range. -/

lemma foldl_merge_step (c s : Nat) (hs : 0 < s) :
    mergeSplit ⟨pSumLen c 0, qProdLen c 0, 1⟩ (compute_binary_split c (c + s))
      = ⟨pSumLen (c + s) 0, qProdLen (c + s) 0, 1⟩ := by
  rw [compute_binary_split_closed c (c + s) (by omega), show c + s - c = s by omega]
  simp only [mergeSplit]
  rw [qProdLen_add c s 0, pSumLen_add c s 0, Split.mk.injEq]
  rw [Nat.zero_add]
  exact ⟨by ring, by ring, by ring⟩

lemma foldl_rangesOfSizes (sizes : List Nat) :
    ∀ start, (∀ s ∈ sizes, 0 < s) →
      List.foldl (fun acc r => mergeSplit acc (compute_binary_split r.1 r.2))
          ⟨pSumLen start 0, qProdLen start 0, 1⟩ (rangesOfSizes start sizes)
        = ⟨pSumLen (start + sizes.sum) 0, qProdLen (start + sizes.sum) 0, 1⟩ := by
  induction sizes with
  | nil => intro start _; simp [rangesOfSizes]
  | cons s rest ih =>
    intro start hpos
    have hs : 0 < s := hpos s (List.mem_cons_self s rest)
    rw [rangesOfSizes, List.foldl_cons, foldl_merge_step start s hs]
    rw [ih (start + s) (fun x hx => hpos x (List.mem_cons_of_mem s hx))]
    rw [List.sum_cons, show start + s + rest.sum = start + (s + rest.sum) by omega]

lemma buildRangesAux_stop (fuel start terms per : Nat) (h : terms ≤ start) :
    buildRangesAux fuel start terms per = [] := by
  cases fuel with
  | zero => rfl
  | succ fuel => rw [buildRangesAux, if_neg (by omega)]

lemma foldl_buildRangesAux (per : Nat) (hper : 0 < per) :
    ∀ fuel start terms, start ≤ terms → terms ≤ start + fuel →
      List.foldl (fun acc r => mergeSplit acc (compute_binary_split r.1 r.2))
          ⟨pSumLen start 0, qProdLen start 0, 1⟩ (buildRangesAux fuel start terms per)
        = ⟨pSumLen terms 0, qProdLen terms 0, 1⟩ := by
  intro fuel
  induction fuel with
  | zero =>
    intro start terms h1 h2
    have : start = terms := by omega
    subst this
    rfl
  | succ fuel ih =>
    intro start terms h1 h2
    by_cases hlt : start < terms
    · rw [buildRangesAux, if_pos hlt, List.foldl_cons]
      have he : min (start + per) terms = start + min per (terms - start) := by omega
      have hs : 0 < min per (terms - start) := by omega
      rw [he, foldl_merge_step start _ hs]
      rw [← he]
      exact ih (min (start + per) terms) terms (by omega) (by omega)
    · have : start = terms := by omega
      subst this
      rw [buildRangesAux_stop, List.foldl_nil]
      omega

/-! Planner arithmetic. -/

lemma ceilDiv_le_iff (a b n : Nat) (hb : 0 < b) : ceilDiv a b ≤ n ↔ a ≤ b * n := by
  rw [ceilDiv, Nat.div_le_iff_le_mul_add_pred hb]
  omega

lemma le_ceilDiv_mul (a b : Nat) (hb : 0 < b) : a ≤ b * ceilDiv a b :=
  (ceilDiv_le_iff a b (ceilDiv a b) hb).mp le_rfl

lemma ceilDiv_pos (a b : Nat) (ha : 0 < a) (hb : 0 < b) : 0 < ceilDiv a b := by
  rw [ceilDiv]
  exact (Nat.one_le_div_iff hb).mpr (by omega)

lemma termsChud_min (d : Nat) : termsChud d = min (ceilDiv (50 * d) 709) 1000 := by
  rw [termsChud]
  show (if ceilDiv (50 * d) 709 > 1000 then 1000 else ceilDiv (50 * d) 709)
      = min (ceilDiv (50 * d) 709) 1000
  split <;> omega

lemma termsChud_le (d : Nat) : termsChud d ≤ 1000 := by
  rw [termsChud_min]
  omega

lemma buildRanges_whole (terms per : Nat) (h1 : 0 < terms) (h2 : terms ≤ per) :
    buildRanges terms per = [(0, terms)] := by
  obtain ⟨k, rfl⟩ : ∃ k, terms = k + 1 := ⟨terms - 1, by omega⟩
  rw [buildRanges, buildRangesAux, if_pos (by omega)]
  rw [show min (0 + per) (k + 1) = k + 1 by omega]
  rw [buildRangesAux_stop k (k + 1) (k + 1) per le_rfl]

/-! Divergence of the splitting recursion on an empty range: with a = b the
wrapped length test is 0, the midpoint equals a, and the recursion calls
itself on the same range forever. -/

lemma computeBinarySplitFuel_self (fuel : Nat) :
    computeBinarySplitFuel fuel 1 1 = none := by
  induction fuel with
  | zero => rfl
  | succ fuel ih =>
    rw [computeBinarySplitFuel, if_neg (by norm_num)]
    rw [show (1 + 1) % 2 ^ 64 / 2 = 1 by norm_num]
    rw [ih]

lemma computeBinarySplitFuel_valid :
    ∀ fuel a b, a < b → b ≤ a + fuel → b < 2 ^ 63 →
      computeBinarySplitFuel fuel a b = some (compute_binary_split a b) := by
  intro fuel
  induction fuel with
  | zero => intro a b h1 h2 _; omega
  | succ fuel ih =>
    intro a b h1 h2 h3
    have hp : (2 : Nat) ^ 64 = 18446744073709551616 := by norm_num
    have hp2 : (2 : Nat) ^ 63 = 9223372036854775808 := by norm_num
    have hwrap : (b + 2 ^ 64 - a) % 2 ^ 64 = b - a := by rw [hp]; rw [hp2] at h3; omega
    have hmid : (a + b) % 2 ^ 64 / 2 = (a + b) / 2 := by rw [hp]; rw [hp2] at h3; omega
    rw [computeBinarySplitFuel, hwrap, hmid]
    by_cases hone : b - a = 1
    · rw [if_pos hone]
      have hb : b = a + 1 := by omega
      subst hb
      rw [compute_binary_split, show a + 1 - a = 1 by omega, computeBinarySplitAux,
        if_pos (by omega)]
    · rw [if_neg hone]
      have hm1 : a < (a + b) / 2 := by omega
      have hm2 : (a + b) / 2 < b := by omega
      rw [ih a ((a + b) / 2) hm1 (by omega) (by omega)]
      rw [ih ((a + b) / 2) b hm2 (by omega) h3]
      rw [← mergeSplit_compute a ((a + b) / 2) b hm1 hm2]

/-! Digit extraction lemmas. -/

lemma rndNearest_eq_one (x : ℚ) (h1 : 1 / 2 < x) (h2 : x < 3 / 2) :
    rndNearest x = 1 := by
  have hf0 : (0 : Int) ≤ ⌊x⌋ := Int.le_floor.mpr (by push_cast; linarith)
  have hf1 : ⌊x⌋ ≤ 1 := by
    have hx : (⌊x⌋ : ℚ) ≤ x := Int.floor_le x
    have : (⌊x⌋ : ℚ) < 2 := by linarith
    exact_mod_cast Int.lt_add_one_iff.mp (by exact_mod_cast this)
  have hcase : ⌊x⌋ = 0 ∨ ⌊x⌋ = 1 := by omega
  rw [rndNearest]
  rcases hcase with hc | hc
  · rw [hc]
    rw [if_neg (by push_cast; linarith), if_pos (by push_cast; linarith)]
    norm_num
  · rw [hc]
    rw [if_pos (by push_cast; linarith)]

lemma streamDigits_step (n : Nat) (rem : ℚ) (d : Int)
    (hd : rndNearest (rem * 10) = d) (h0 : 0 ≤ d) (h32 : d < 2 ^ 32) :
    streamDigits (n + 1) rem =
      match streamDigits n (rem * 10 - ((d.toNat % 256 : Nat) : ℚ)) with
      | none => none
      | some ds => some (d.toNat % 256 :: ds) := by
  rw [streamDigits]
  show (if rndNearest (rem * 10) < 0 ∨ (2 ^ 32 : Int) ≤ rndNearest (rem * 10)
        then none
        else
          match streamDigits n
              (rem * 10 - (((rndNearest (rem * 10)).toNat % 256 : Nat) : ℚ)) with
          | none => none
          | some ds => some ((rndNearest (rem * 10)).toNat % 256 :: ds))
      = _
  rw [hd, if_neg (by omega)]

lemma streamDigits_step_neg (n : Nat) (rem : ℚ) (h : rndNearest (rem * 10) < 0) :
    streamDigits (n + 1) rem = none := by
  rw [streamDigits]
  show (if rndNearest (rem * 10) < 0 ∨ (2 ^ 32 : Int) ≤ rndNearest (rem * 10)
        then none
        else
          match streamDigits n
              (rem * 10 - (((rndNearest (rem * 10)).toNat % 256 : Nat) : ℚ)) with
          | none => none
          | some ds => some ((rndNearest (rem * 10)).toNat % 256 :: ds))
      = none
  rw [if_pos (Or.inl h)]

/-! Claim theorems. -/

/-- C1: binary-split merging is associative and split-point independent.
For all 0 <= a < m < b, merging compute_binary_split(a, m) = (P1, Q1, T1)
and compute_binary_split(m, b) = (P2, Q2, T2) via P = P1*Q2 + P2*T1,
Q = Q1*Q2, T = T1*T2 yields exactly compute_binary_split(a, b); in
particular the triple of a fixed range does not depend on the chosen
midpoint. -/
theorem binary_split_merge_independent (a m b : Nat) (h1 : a < m) (h2 : m < b) :
    mergeSplit (compute_binary_split a m) (compute_binary_split m b)
      = compute_binary_split a b :=
  mergeSplit_compute a m b h1 h2

/-- Witness for C1 at the concrete range [0, 2) split at 1. -/
theorem binary_split_merge_independent_witness :
    0 < 1 ∧ 1 < 2 ∧
      mergeSplit (compute_binary_split 0 1) (compute_binary_split 1 2)
        = compute_binary_split 0 2 :=
  ⟨by decide, by decide, binary_split_merge_independent 0 1 2 (by decide) (by decide)⟩

/-- C2: StaticRangeSplit refines the sequential computation.  For every
n >= 1 and every partition of [0, n) into contiguous sub-ranges taken in
ascending order, binary-splitting each sub-range independently and folding
the triples strictly left to right from (P, Q, T) = (0, 1, 1) with the merge
rule yields the same triple as the single call compute_binary_split(0, n),
whatever the number of worker ranges. -/
theorem static_range_split_refines (sizes : List Nat) (n : Nat)
    (hpos : ∀ s ∈ sizes, 0 < s) (hsum : sizes.sum = n) (hn : 0 < n) :
    foldRanges (rangesOfSizes 0 sizes) = compute_binary_split 0 n := by
  have h := foldl_rangesOfSizes sizes 0 hpos
  rw [show (0 : Nat) + sizes.sum = n by omega] at h
  rw [foldRanges, compute_binary_split_closed 0 n hn, show n - 0 = n by omega]
  exact h

/-- Witness for C2: the partition of [0, 3) into sizes [1, 2]. -/
theorem static_range_split_refines_witness :
    (∀ s ∈ ([1, 2] : List Nat), 0 < s) ∧ ([1, 2] : List Nat).sum = 3 ∧ 0 < 3 ∧
      foldRanges (rangesOfSizes 0 [1, 2]) = compute_binary_split 0 3 :=
  ⟨by decide, by decide, by decide,
    static_range_split_refines [1, 2] 3 (by decide) (by decide) (by decide)⟩

/-- C3: failing-input evaluation.  The w0 incremental evaluator, after
computing term 0, asked for term 2 without having computed term 1 (exactly
what the work-stealing loop does with two threads), produces denominator
960 * 640320^6 from its stale factorial state instead of the closed-form
Chudnovsky denominator (3*2)! * (2!)^3 * 640320^6 = 5760 * 640320^6: the
evaluator does not re-derive its recurrence state at a non-consecutive
starting index, so the produced term differs from the closed form. -/
theorem w0_stale_recurrence_denominator :
    (compute_term (compute_term initCalc 0).1 2).2.2 = 960 * 640320 ^ 6 ∧
      chudDen 2 = 5760 * 640320 ^ 6 ∧
      (compute_term (compute_term initCalc 0).1 2).2.2 ≠ chudDen 2 :=
  ⟨by decide, by decide, by decide⟩

/-- C4: failing-input evaluation.  On an assembled value with the leading
digits of pi, the streaming extractor of write_pi_to_file_optimized rounds
the third scaled remainder 1.59… up to 2 (Float::to_integer rounds to
nearest), the remainder goes negative, and the fourth digit's
to_u32().unwrap() panics: no streamed output exists for digits = 5000, so
the two extraction modes cannot produce identical output. -/
theorem streaming_extraction_aborts :
    streamRender (3 + 1415926535 / 10000000000) 5000 = none := by
  have e0 : (3 + 1415926535 / 10000000000 : ℚ) - 3 = 1415926535 / 10000000000 := by
    norm_num
  have h1 : rndNearest ((1415926535 / 10000000000 : ℚ) * 10) = 1 := by
    rw [show ((1415926535 / 10000000000 : ℚ) * 10) = 1415926535 / 1000000000 by norm_num,
      rndNearest]
    norm_num
  have r1 : (1415926535 / 10000000000 : ℚ) * 10 - ((Int.toNat 1 % 256 : Nat) : ℚ)
      = 415926535 / 1000000000 := by norm_num
  have h2 : rndNearest ((415926535 / 1000000000 : ℚ) * 10) = 4 := by
    rw [show ((415926535 / 1000000000 : ℚ) * 10) = 415926535 / 100000000 by norm_num,
      rndNearest]
    norm_num
  have r2 : (415926535 / 1000000000 : ℚ) * 10 - ((Int.toNat 4 % 256 : Nat) : ℚ)
      = 15926535 / 100000000 := by
    rw [show (Int.toNat 4 % 256 : Nat) = 4 from rfl]
    norm_num
  have h3 : rndNearest ((15926535 / 100000000 : ℚ) * 10) = 2 := by
    rw [show ((15926535 / 100000000 : ℚ) * 10) = 15926535 / 10000000 by norm_num,
      rndNearest]
    norm_num
  have r3 : (15926535 / 100000000 : ℚ) * 10 - ((Int.toNat 2 % 256 : Nat) : ℚ)
      = -4073465 / 10000000 := by
    rw [show (Int.toNat 2 % 256 : Nat) = 2 from rfl]
    norm_num
  have h4 : rndNearest ((-4073465 / 10000000 : ℚ) * 10) < 0 := by
    rw [show ((-4073465 / 10000000 : ℚ) * 10) = -4073465 / 1000000 by norm_num,
      rndNearest]
    norm_num
  rw [streamRender, e0]
  rw [show (5000 : Nat) = 4999 + 1 from rfl,
    streamDigits_step 4999 _ 1 h1 (by norm_num) (by norm_num), r1]
  rw [show (4999 : Nat) = 4998 + 1 from rfl,
    streamDigits_step 4998 _ 4 h2 (by norm_num) (by norm_num), r2]
  rw [show (4998 : Nat) = 4997 + 1 from rfl,
    streamDigits_step 4997 _ 2 h3 (by norm_num) (by norm_num), r3]
  rw [show (4997 : Nat) = 4996 + 1 from rfl, streamDigits_step_neg 4996 _ h4]

/-- C5 (amended): every path computes its working precision as
ceil(digits * 3.32193) plus a per-path guard constant, but the guard is not
one shared constant: 10 bits on the ava, chudnovsky and chudnovsky0 paths
and 32 bits on the w0 path, a fixed difference of 22 bits. -/
theorem precision_guard_per_path (d : Nat) :
    precisionChud d = precisionAva d ∧ precisionChud0 d = precisionAva d ∧
      precisionW0 d = precisionAva d + 22 := by
  refine ⟨rfl, rfl, ?_⟩
  rw [precisionW0, precisionAva]

/-- Counterexample for C5 as stated: at digits = 1 the w0 path plans 36 bits
while the ava path plans 14, so no single guard constant serves every code
path. -/
theorem precision_guard_not_uniform : precisionW0 1 ≠ precisionAva 1 := by decide

/-- C6 (amended): the Chudnovsky paths plan their term counts with different
constants: the binary-split path clamps ceil(digits / 14.18) to 1000 with no
guard terms, chudnovsky0 adds 2 guard terms to ceil(digits / 14.18), and w0
adds 2 guard terms to ceil(digits / 14.0); hence the binary-split count is
min(chudnovsky0 count - 2, 1000) and the chudnovsky0 count never exceeds the
w0 count.  No path divides by 14.1816. -/
theorem terms_planner_per_path (d : Nat) :
    termsChud d = min (termsChud0 d - 2) 1000 ∧ termsChud0 d ≤ termsW0 d := by
  constructor
  · rw [termsChud_min, termsChud0]
    omega
  · rw [termsChud0, termsW0]
    have hd : d ≤ 14 * ceilDiv d 14 := le_ceilDiv_mul d 14 (by norm_num)
    have hle : ceilDiv (50 * d) 709 ≤ ceilDiv d 14 :=
      (ceilDiv_le_iff (50 * d) 709 (ceilDiv d 14) (by norm_num)).mpr (by omega)
    omega

/-- Counterexample for C6 as stated: at digits = 100 the binary-split path
plans 8 terms while the chudnovsky0 path plans 10, so the per-path counts
cannot all equal ceil(digits / 14.1816) plus one shared guard constant. -/
theorem terms_planner_not_uniform : termsChud 100 ≠ termsChud0 100 := by decide

/-- C7 (amended): for one requested digit the streaming extractor renders
exactly "3.1" for any assembled value whose scaled fractional remainder lies
in (1/2, 3/2) - in particular for the pi approximation, whose first scaled
remainder 1.415… rounds to the same digit truncation would give.  The digit
is produced by Float::to_integer's rounding to nearest, not by
truncation. -/
theorem one_digit_render (v : ℚ) (h1 : 1 / 2 < (v - 3) * 10)
    (h2 : (v - 3) * 10 < 3 / 2) :
    streamRender v 1 = some "3.1" := by
  have hd : rndNearest ((v - 3) * 10) = 1 := rndNearest_eq_one _ h1 h2
  rw [streamRender, show (1 : Nat) = 0 + 1 from rfl,
    streamDigits_step 0 (v - 3) 1 hd (by norm_num) (by norm_num)]
  rfl

/-- Witness for C7 at a concrete ten-digit pi approximation. -/
theorem one_digit_render_witness :
    (1 / 2 : ℚ) < ((3 + 1415926535 / 10000000000 : ℚ) - 3) * 10 ∧
      ((3 + 1415926535 / 10000000000 : ℚ) - 3) * 10 < 3 / 2 ∧
      streamRender (3 + 1415926535 / 10000000000) 1 = some "3.1" :=
  ⟨by norm_num, by norm_num, one_digit_render _ (by norm_num) (by norm_num)⟩

/-- Counterexample for C7 as stated: on the value 3 + 5/32 = 3.15625, whose
scaled remainder is 1.5625, truncation toward zero gives digit 1 but the
extractor renders "3.2" - the single fractional digit is obtained by
rounding to nearest, not by truncation. -/
theorem one_digit_rounds_not_truncates :
    streamRender (3 + 5 / 32) 1 = some "3.2" ∧ truncFirstDigit (3 + 5 / 32) = 1 := by
  constructor
  · have hd : rndNearest (((3 + 5 / 32 : ℚ) - 3) * 10) = 2 := by
      rw [show (((3 + 5 / 32 : ℚ) - 3) * 10) = 25 / 16 by norm_num, rndNearest]
      norm_num
    rw [streamRender, show (1 : Nat) = 0 + 1 from rfl,
      streamDigits_step 0 _ 2 hd (by norm_num) (by norm_num)]
    rfl
  · rw [truncFirstDigit]
    norm_num

/-- C8 (amended): no input validation exists on the computation paths.  With
digits = 0 the binary-split pipeline plans 0 terms, builds no ranges and
returns the initial triple (0, 1, 1); with thread count = 0 the per-thread
term count saturates to u64::MAX, a single range covers all terms, and the
result equals the single-thread run.  Neither input produces an error. -/
theorem no_input_validation (d t : Nat) :
    compute_pi_triple 0 t = ⟨0, 1, 1⟩ ∧
      compute_pi_triple d 0 = compute_pi_triple d 1 := by
  constructor
  · show foldRanges (buildRanges (termsChud 0) (numTermsPerThread (termsChud 0) t))
        = ⟨0, 1, 1⟩
    rw [show termsChud 0 = 0 from rfl]
    rfl
  · show foldRanges (buildRanges (termsChud d) (numTermsPerThread (termsChud d) 0))
        = foldRanges (buildRanges (termsChud d) (numTermsPerThread (termsChud d) 1))
    rcases Nat.eq_zero_or_pos (termsChud d) with h | h
    · rw [h]
      rfl
    · have hmax : numTermsPerThread (termsChud d) 0 = 2 ^ 64 - 1 := by
        rw [numTermsPerThread, if_pos rfl, if_neg (by omega)]
      have hone : numTermsPerThread (termsChud d) 1 = termsChud d := by
        rw [numTermsPerThread, if_neg (by norm_num), ceilDiv]
        omega
      rw [hmax, hone,
        buildRanges_whole _ _ h (by have := termsChud_le d; omega),
        buildRanges_whole _ _ h le_rfl]

/-- Counterexample for C8 as stated: digits = 0 with 4 threads returns the
triple (0, 1, 1) and digits = 5 with 0 threads returns the triple
(13591409, 1, 1); neither input fails with an error. -/
theorem no_validation_returns_triples :
    compute_pi_triple 0 4 = ⟨0, 1, 1⟩ ∧
      compute_pi_triple 5 0 = ⟨13591409, 1, 1⟩ :=
  ⟨by decide, by decide⟩

/-- C9 (amended): compute_binary_split has no error path at all.  On the
invalid range a = b = 1 the recursion reproduces the same call forever and
never returns (none at every inspected depth); on a valid range a < b
(within u64 bounds, b < 2^63, so the wrapped length test and midpoint agree
with the exact ones) it returns the triple of the range, with fuel b - a
depth sufficing.  No InvalidRange error exists. -/
theorem invalid_range_never_errors :
    (∀ fuel, computeBinarySplitFuel fuel 1 1 = none) ∧
      (∀ a b fuel, a < b → b ≤ a + fuel → b < 2 ^ 63 →
        computeBinarySplitFuel fuel a b = some (compute_binary_split a b)) :=
  ⟨computeBinarySplitFuel_self,
    fun a b fuel h1 h2 h3 => computeBinarySplitFuel_valid fuel a b h1 h2 h3⟩

/-- Counterexample for C9 as stated: on the invalid range a = b = 1 the
recursion yields no result within 50 levels (and, by
invalid_range_never_errors, within any number of levels) instead of failing
with an InvalidRange error. -/
theorem invalid_range_no_result : computeBinarySplitFuel 50 1 1 = none :=
  computeBinarySplitFuel_self 50

/-- C10: the binary-splitting path clamps its term count to a hard maximum
of 1000: the number of series terms computed is min(ceil(digits / 14.18),
1000), and for any positive thread count the merged triple is exactly the
closed-form triple over [0, termsChud digits), hence covers at most 1000
terms regardless of the requested digit count. -/
theorem term_cap_and_coverage (d t : Nat) (ht : 0 < t) :
    compute_pi_triple d t = ⟨pSumLen (termsChud d) 0, qProdLen (termsChud d) 0, 1⟩ ∧
      termsChud d = min (ceilDiv (50 * d) 709) 1000 ∧ termsChud d ≤ 1000 := by
  refine ⟨?_, termsChud_min d, termsChud_le d⟩
  show foldRanges (buildRanges (termsChud d) (numTermsPerThread (termsChud d) t))
      = ⟨pSumLen (termsChud d) 0, qProdLen (termsChud d) 0, 1⟩
  rcases Nat.eq_zero_or_pos (termsChud d) with h | h
  · rw [h]
    rfl
  · have hper : 0 < numTermsPerThread (termsChud d) t := by
      rw [numTermsPerThread, if_neg (by omega)]
      exact ceilDiv_pos _ _ h ht
    rw [foldRanges, buildRanges]
    exact foldl_buildRangesAux _ hper (termsChud d) 0 (termsChud d) (by omega) (by omega)

/-- Witness for C10 at digits = 3 with 2 threads. -/
theorem term_cap_and_coverage_witness :
    0 < 2 ∧
      (compute_pi_triple 3 2
          = ⟨pSumLen (termsChud 3) 0, qProdLen (termsChud 3) 0, 1⟩ ∧
        termsChud 3 = min (ceilDiv (50 * 3) 709) 1000 ∧ termsChud 3 ≤ 1000) :=
  ⟨by decide, term_cap_and_coverage 3 2 (by decide)⟩

end PiEval
